import Mathlib

set_option maxRecDepth 1000000

/-!
Verification of the core of the `fuel` repository: the batch/index scheme
family (`fuel/schemes.py`) and the HDF5 assembler (`fuel/converters/base.py`,
`fill_hdf5_file`).  The repository ships only the test suite for these two
components, so the definitions below are modelled from the specification,
constrained by the behaviour the tests in `tests/test_schemes.py` and
`tests/test_converters.py` pin down.
-/

namespace Fuel

/-! ### numpy `RandomState` (Mersenne Twister, `randomkit.c`)

The shuffled schemes draw from a caller-supplied `numpy.random.RandomState`.
We embed the exact MT19937 algorithm used by numpy's legacy generator:
`rk_seed` (scalar seeding), the in-place twist, tempering, and the masked
rejection sampling of `rk_interval`, over `Nat` with explicit 32-bit
reductions. -/

/-- One step of `rk_seed`'s key initialisation. -/
def rkSeedAux (seed pos : Nat) : Nat → List Nat
  | 0 => []
  | n + 1 =>
    seed :: rkSeedAux ((1812433253 * (seed ^^^ (seed >>> 30)) + pos + 1) % 4294967296)
      (pos + 1) n

/-- State of numpy's legacy RandomState: the 624-word MT19937 key and the
read position. -/
structure RKState where
  key : List Nat
  pos : Nat
deriving Repr, DecidableEq, Inhabited

/-- Modelled from the spec: numpy `rk_seed` — scalar seeding of a fresh
`RandomState(seed)` (the `fuel` source for the schemes is not in the
repository snapshot; the RNG is numpy's). -/
def rkSeed (seed : Nat) : RKState :=
  ⟨rkSeedAux (seed % 4294967296) 0 624, 624⟩

/-- One index of the in-place MT19937 state twist. -/
def twistStep (key : List Nat) (i : Nat) : List Nat :=
  let y := (key.getD i 0 &&& 2147483648) ||| (key.getD ((i + 1) % 624) 0 &&& 2147483647)
  key.set i
    ((key.getD ((i + 397) % 624) 0) ^^^ (y >>> 1) ^^^ (if y % 2 = 1 then 2567483615 else 0))

/-- The full MT19937 state regeneration (624 in-place steps). -/
def mtTwist (key : List Nat) : List Nat :=
  (List.range 624).foldl twistStep key

/-- MT19937 output tempering. -/
def temper (y : Nat) : Nat :=
  let y1 := y ^^^ (y >>> 11)
  let y2 := y1 ^^^ ((y1 <<< 7) &&& 2636928640)
  let y3 := y2 ^^^ ((y2 <<< 15) &&& 4022730752)
  y3 ^^^ (y3 >>> 18)

/-- numpy `rk_random`: one 32-bit draw, twisting when the key is exhausted. -/
def rkRandom (st : RKState) : Nat × RKState :=
  let st' := if st.pos = 624 then RKState.mk (mtTwist st.key) 0 else st
  (temper (st'.key.getD st'.pos 0), ⟨st'.key, st'.pos + 1⟩)

/-- The bit mask used by `rk_interval`'s rejection sampling. -/
def mkMask (mx : Nat) : Nat :=
  let m1 := mx ||| (mx >>> 1)
  let m2 := m1 ||| (m1 >>> 2)
  let m3 := m2 ||| (m2 >>> 4)
  let m4 := m3 ||| (m3 >>> 8)
  m4 ||| (m4 >>> 16)

/-- Fuelled rejection loop of `rk_interval` (the rejection loop of the C
code is unbounded; the fuel is never exhausted on real draws, and on
exhaustion we return 0, which is always in range). -/
def rkIntervalAux (mx mask : Nat) : Nat → RKState → Nat × RKState
  | 0, st => (0, st)
  | fuel + 1, st =>
    let (r, st') := rkRandom st
    if r &&& mask ≤ mx then (r &&& mask, st') else rkIntervalAux mx mask fuel st'

/-- numpy `rk_interval mx`: a draw uniform on `[0, mx]`. -/
def rkInterval (mx : Nat) (st : RKState) : Nat × RKState :=
  if mx = 0 then (0, st) else rkIntervalAux mx (mkMask mx) 1000000 st

/-- Swap of two positions in a list (the `x[i], x[j] = x[j], x[i]` of
numpy's sequence shuffle); out-of-range indices leave the list unchanged. -/
def listSwap (l : List α) (i j : Nat) : List α :=
  match l[i]?, l[j]? with
  | some a, some b => (l.set i b).set j a
  | _, _ => l

/-- The Fisher–Yates loop of numpy's `shuffle`: processes positions
`i, i-1, …, 1`, drawing `j = rk_interval i` and swapping. -/
def shuffleAux : List α → Nat → RKState → List α × RKState
  | l, 0, st => (l, st)
  | l, i + 1, st =>
    let (j, st') := rkInterval (i + 1) st
    shuffleAux (listSwap l (i + 1) j) i st'

/-- Modelled from the spec: numpy `RandomState.shuffle` on a sequence —
an in-place Fisher–Yates permutation driven by `rk_interval`. -/
def npShuffle (l : List α) (st : RKState) : List α × RKState :=
  shuffleAux l (l.length - 1) st

end Fuel

namespace Fuel

/-! ### Requests and populations -/

/-- A request handed to a downstream reader: an ascending contiguous
range descriptor, an explicit ordered index list, or a single bare index. -/
inductive Request where
  | range (start stop : Nat)
  | batch (indices : List Int)
  | index (idx : Int)
deriving Repr, DecidableEq, Inhabited

/-- Whether a request is a contiguous range descriptor. -/
def Request.isRangeDescriptor : Request → Bool
  | .range _ _ => true
  | _ => false

/-- The index sequence a request selects. -/
def Request.toIndices : Request → List Int
  | .range s t => (List.range (t - s)).map (fun k => Int.ofNat (s + k))
  | .batch l => l
  | .index i => [i]

/-- A population: either a bare size `N` (domain `0..N-1`) or an explicit
ordered index list. -/
inductive Population where
  | size (n : Nat)
  | explicit (l : List Int)
deriving Repr, DecidableEq, Inhabited

/-- The list `[0, 1, …, n-1]` as integers. -/
def intRange (n : Nat) : List Int := (List.range n).map Int.ofNat

/-- The ordered index domain of a population. -/
def Population.indices : Population → List Int
  | .size n => intRange n
  | .explicit l => l

/-- Consecutive chunking, with a structural fuel (an upper bound on the
list length) so that the definition reduces in the kernel. -/
def chunkListAux : Nat → Nat → List α → List (List α)
  | _, _, [] => []
  | _, 0, _ :: _ => []
  | 0, _ + 1, _ :: _ => []
  | fuel + 1, b + 1, x :: xs => (x :: xs.take b) :: chunkListAux fuel (b + 1) (xs.drop b)

/-- Consecutive chunks of size `b` (last chunk holds the remainder).
For `b = 0` no chunk is produced. -/
def chunkList (b : Nat) (l : List α) : List (List α) :=
  chunkListAux l.length b l

/-! ### The scheme family

Modelled from the spec (`fuel/schemes.py` itself is absent from the
snapshot; only `tests/test_schemes.py` is present, and the shapes of the
emitted requests are pinned by those tests). -/

/-- Modelled from the spec: `ConstantScheme(batch_size, num_examples=n)` —
emits `batch_size` repeatedly, with a final remainder request
`n mod batch_size` when that is nonzero, then stops. -/
def constantSchemeRequests (batchSize numExamples : Nat) : List Nat :=
  List.replicate (numExamples / batchSize) batchSize ++
    (if numExamples % batchSize = 0 then [] else [numExamples % batchSize])

/-- Modelled from the spec: `SequentialScheme(population, batch_size)` —
partitions the index domain in original order into consecutive chunks;
each request is an explicit index list (`tests/test_schemes.py` compares
the requests with Python lists). -/
def sequentialSchemeRequests (pop : Population) (b : Nat) : List Request :=
  (chunkList b pop.indices).map Request.batch

/-- Modelled from the spec: `SequentialExampleScheme(population)` — emits
each index of the population, in order, as a bare integer request. -/
def sequentialExampleSchemeRequests (pop : Population) : List Request :=
  pop.indices.map Request.index

/-- Modelled from the spec: `ShuffledScheme(population, batch_size, rng,
sorted_indices)` — permutes the index domain with the generator, chunks it,
and emits explicit index lists, each chunk sorted ascending when
`sorted_indices` is set; returns the advanced generator state. -/
def shuffledSchemeRequests (pop : Population) (b : Nat) (sortedIndices : Bool)
    (st : RKState) : List Request × RKState :=
  let (sh, st') := npShuffle pop.indices st
  ((chunkList b sh).map
      (fun c => Request.batch (if sortedIndices then List.insertionSort (· ≤ ·) c else c)),
    st')

/-- Modelled from the spec: `ShuffledExampleScheme(population, rng)` —
permutes the index domain with the generator and emits each index as a
bare integer request; returns the advanced generator state. -/
def shuffledExampleSchemeRequests (pop : Population) (st : RKState) :
    List Request × RKState :=
  let (sh, st') := npShuffle pop.indices st
  (sh.map Request.index, st')

end Fuel

namespace Fuel

/-! ### The assembler (`fill_hdf5_file`)

Modelled from the spec (`fuel/converters/base.py` is absent from the
snapshot; only `tests/test_converters.py` is present).  An array is its
dtype, its trailing shape (all dimensions but the first) and its rows;
assembly validates, concatenates each source's records along axis 0 in
input order, and records per-record split boundaries. -/

/-- An n-dimensional array: dtype, trailing shape (dims 1..k), and the
axis-0 rows (each row flattened). -/
structure NDArray where
  dtype : String
  trailing : List Nat
  rows : List (List Int)
deriving Repr, DecidableEq, Inhabited

/-- One split record handed to the assembler: `(split_name, source_name,
array, optional comment)`; the comment does not affect assembly. -/
structure SplitRecord where
  split : String
  source : String
  array : NDArray
  comment : Option String := none
deriving Repr, DecidableEq, Inhabited

/-- Names in first-seen order, without duplicates. -/
def firstSeen : List String → List String
  | [] => []
  | x :: xs => x :: (firstSeen xs).filter (fun y => y != x)

/-- Split names of the input, in first-seen order. -/
def splitsOf (data : List SplitRecord) : List String :=
  firstSeen (data.map (·.split))

/-- Source names of the input, in first-seen order. -/
def sourcesOf (data : List SplitRecord) : List String :=
  firstSeen (data.map (·.source))

/-- The records of one split, in input order. -/
def recordsOfSplit (data : List SplitRecord) (s : String) : List SplitRecord :=
  data.filter (fun r => r.split == s)

/-- The records of one source, in input order. -/
def recordsOfSource (data : List SplitRecord) (s : String) : List SplitRecord :=
  data.filter (fun r => r.source == s)

/-- Whether `f` agrees on every record of the list. -/
def allSameBy (f : SplitRecord → β) [BEq β] : List SplitRecord → Bool
  | [] => true
  | r :: rs => rs.all (fun t => f t == f r)

/-- Modelled from the spec (behaviour pinned by
`test_multiple_length_error`): the first split, if any, whose sources
vary in row count. -/
def findBadSplit (data : List SplitRecord) : Option String :=
  (splitsOf data).find?
    (fun s => !allSameBy (fun r => r.array.rows.length) (recordsOfSplit data s))

/-- The first source, if any, whose records vary in trailing shape or
dtype. -/
def findBadSource (data : List SplitRecord) : Option String :=
  (sourcesOf data).find?
    (fun s => !(allSameBy (fun r => r.array.trailing) (recordsOfSource data s) &&
                allSameBy (fun r => r.array.dtype) (recordsOfSource data s)))

/-- Row-wise (axis-0) concatenation of a source's records in input order. -/
def concatSource (recs : List SplitRecord) : NDArray :=
  { dtype := ((recs.head?).map (fun r => r.array.dtype)).getD ""
    trailing := ((recs.head?).map (fun r => r.array.trailing)).getD []
    rows := (recs.map (fun r => r.array.rows)).flatten }

/-- The assembled destination: one concatenated table per source (in
first-seen order) and the `[start, stop)` boundary of every record within
its source's table, in input order. -/
structure AssemblerOutput where
  tables : List (String × NDArray)
  splitBounds : List ((String × String) × (Nat × Nat))
deriving Repr, DecidableEq, Inhabited

/-- Cumulative row count of the records preceding record `i` that share
its source: the `start` of record `i`'s boundary. -/
def recordStart (data : List SplitRecord) (i : Nat) : Nat :=
  (((data.take i).filter (fun r => r.source == (data.getD i default).source)).map
      (fun r => r.array.rows.length)).sum

/-- The successfully assembled output for a validated input. -/
def buildOutput (data : List SplitRecord) : AssemblerOutput :=
  { tables := (sourcesOf data).map (fun s => (s, concatSource (recordsOfSource data s)))
    splitBounds := (List.range data.length).map (fun i =>
      let r := data.getD i default
      ((r.split, r.source),
        (recordStart data i, recordStart data i + r.array.rows.length))) }

/-- Modelled from the spec: `fill_hdf5_file` — one validation pass (per
split, sources must agree in row count; per source, records must agree in
trailing shape and dtype), then one write pass; any validation failure
aborts before anything is written. -/
def fillHDF5File (data : List SplitRecord) : Except String AssemblerOutput :=
  match findBadSplit data with
  | some s => .error ("split " ++ s ++ " has sources that vary in length")
  | none =>
    match findBadSource data with
    | some s => .error ("source " ++ s ++ " has splits that vary in shape or dtype")
    | none => .ok (buildOutput data)

/-- The table written for a source, if any. -/
def lookupTable (out : AssemblerOutput) (s : String) : Option NDArray :=
  (out.tables.find? (fun p => p.1 == s)).map (fun p => p.2)

/-- The rows of the half-open slice `[start, stop)` of a table. -/
def sliceRows (rows : List (List Int)) (start stop : Nat) : List (List Int) :=
  (rows.drop start).take (stop - start)

end Fuel

namespace Fuel


/-! ### Helper lemmas: the shuffle permutes, chunking partitions -/

theorem set_perm_cons_eraseIdx :
    ∀ (l : List α) (m : Nat) (x : α), m < l.length →
      List.Perm (l.set m x) (x :: l.eraseIdx m)
  | a :: l, 0, x, _ => by simp
  | a :: l, m + 1, x, h => by
    have ih := set_perm_cons_eraseIdx l m x (by simpa using h)
    simpa using (ih.cons a).trans (List.Perm.swap x a (l.eraseIdx m))

theorem set_eq_self_of_getElem? :
    ∀ (l : List α) (m : Nat) (x : α), l[m]? = some x → l.set m x = l
  | [], _, _, h => by simp at h
  | a :: l, 0, x, h => by
    simp at h
    simp [h]
  | a :: l, m + 1, x, h => by
    simp at h
    simp [set_eq_self_of_getElem? l m x h]

theorem set_set_perm :
    ∀ (l : List α) (i j : Nat) (a b : α),
      l[i]? = some a → l[j]? = some b →
      List.Perm ((l.set i b).set j a) l
  | [], _, _, _, _, ha, _ => by simp at ha
  | x :: xs, 0, 0, a, b, ha, hb => by
    simp at ha hb
    simp [ha, hb]
  | x :: xs, 0, j + 1, a, b, ha, hb => by
    simp at ha hb
    subst ha
    obtain ⟨hj, -⟩ := List.getElem?_eq_some.mp hb
    show List.Perm (b :: xs.set j x) (x :: xs)
    have h1 : List.Perm (b :: xs.set j x) (b :: (x :: xs.eraseIdx j)) :=
      (set_perm_cons_eraseIdx xs j x hj).cons b
    have h2 : List.Perm xs (b :: xs.eraseIdx j) := by
      have hp := set_perm_cons_eraseIdx xs j b hj
      rwa [set_eq_self_of_getElem? xs j b hb] at hp
    exact h1.trans ((List.Perm.swap x b (xs.eraseIdx j)).trans (h2.cons x).symm)
  | x :: xs, i + 1, 0, a, b, ha, hb => by
    simp at ha hb
    subst hb
    obtain ⟨hi, -⟩ := List.getElem?_eq_some.mp ha
    show List.Perm (a :: xs.set i x) (x :: xs)
    have h1 : List.Perm (a :: xs.set i x) (a :: (x :: xs.eraseIdx i)) :=
      (set_perm_cons_eraseIdx xs i x hi).cons a
    have h2 : List.Perm xs (a :: xs.eraseIdx i) := by
      have hp := set_perm_cons_eraseIdx xs i a hi
      rwa [set_eq_self_of_getElem? xs i a ha] at hp
    exact h1.trans ((List.Perm.swap x a (xs.eraseIdx i)).trans (h2.cons x).symm)
  | x :: xs, i + 1, j + 1, a, b, ha, hb => by
    simp at ha hb
    show List.Perm (x :: (xs.set i b).set j a) (x :: xs)
    exact (set_set_perm xs i j a b ha hb).cons x

theorem listSwap_perm (l : List α) (i j : Nat) : List.Perm (listSwap l i j) l := by
  rcases hi : l[i]? with _ | a <;> rcases hj : l[j]? with _ | b <;>
    simp only [listSwap, hi, hj]
  · exact List.Perm.refl l
  · exact List.Perm.refl l
  · exact List.Perm.refl l
  · exact set_set_perm l i j a b hi hj

theorem shuffleAux_fst_perm :
    ∀ (i : Nat) (l : List α) (st : RKState), List.Perm (shuffleAux l i st).1 l
  | 0, l, _ => List.Perm.refl l
  | i + 1, l, st => by
    simp only [shuffleAux]
    rcases h : rkInterval (i + 1) st with ⟨j, st'⟩
    exact (shuffleAux_fst_perm i (listSwap l (i + 1) j) st').trans (listSwap_perm l (i + 1) j)

theorem npShuffle_fst_perm (l : List α) (st : RKState) :
    List.Perm (npShuffle l st).1 l :=
  shuffleAux_fst_perm (l.length - 1) l st

end Fuel

namespace Fuel

theorem chunkListAux_nil (fuel b : Nat) : chunkListAux fuel b ([] : List α) = [] := by
  cases fuel <;> cases b <;> rfl

theorem chunkListAux_flatten :
    ∀ (fuel b : Nat) (l : List α), l.length ≤ fuel → 0 < b →
      (chunkListAux fuel b l).flatten = l := by
  intro fuel
  induction fuel with
  | zero =>
    intro b l hl _
    cases l with
    | nil => simp [chunkListAux_nil]
    | cons x xs => simp at hl
  | succ fuel ih =>
    intro b l hl hb
    cases l with
    | nil => simp [chunkListAux_nil]
    | cons x xs =>
      cases b with
      | zero => omega
      | succ b =>
        rw [chunkListAux, List.flatten_cons,
          ih (b + 1) (xs.drop b)
            (by rw [List.length_drop]; simp only [List.length_cons] at hl; omega) (by omega)]
        simp

theorem chunkListAux_mem_length :
    ∀ (fuel b : Nat) (l c : List α), c ∈ chunkListAux fuel b l →
      0 < c.length ∧ c.length ≤ b := by
  intro fuel
  induction fuel with
  | zero =>
    intro b l c hc
    cases l with
    | nil => rw [chunkListAux_nil] at hc; simp at hc
    | cons x xs => cases b <;> simp [chunkListAux] at hc
  | succ fuel ih =>
    intro b l c hc
    cases l with
    | nil => rw [chunkListAux_nil] at hc; simp at hc
    | cons x xs =>
      cases b with
      | zero => simp [chunkListAux] at hc
      | succ b =>
        rw [chunkListAux] at hc
        rcases List.mem_cons.mp hc with hc | hc
        · subst hc
          simp only [List.length_cons, List.length_take]
          omega
        · exact ih (b + 1) (xs.drop b) c hc

theorem chunkListAux_dropLast_length :
    ∀ (fuel b : Nat) (l c : List α), c ∈ (chunkListAux fuel b l).dropLast →
      c.length = b := by
  intro fuel
  induction fuel with
  | zero =>
    intro b l c hc
    cases l with
    | nil => rw [chunkListAux_nil] at hc; simp at hc
    | cons x xs => cases b <;> simp [chunkListAux] at hc
  | succ fuel ih =>
    intro b l c hc
    cases l with
    | nil => rw [chunkListAux_nil] at hc; simp at hc
    | cons x xs =>
      cases b with
      | zero => simp [chunkListAux] at hc
      | succ b =>
        rw [chunkListAux] at hc
        rcases hrest : chunkListAux fuel (b + 1) (xs.drop b) with _ | ⟨c1, cs⟩
        · rw [hrest] at hc
          simp at hc
        · rw [hrest, List.dropLast_cons_of_ne_nil (by simp)] at hc
          rcases List.mem_cons.mp hc with hc | hc
          · subst hc
            have hdrop : xs.drop b ≠ [] := by
              intro hnil
              rw [hnil, chunkListAux_nil] at hrest
              exact List.noConfusion hrest
            have hlen : b < xs.length := by
              by_contra hcon
              exact hdrop (List.drop_eq_nil_iff.mpr (by omega))
            simp only [List.length_cons, List.length_take]
            omega
          · exact ih (b + 1) (xs.drop b) c (by rw [hrest]; exact hc)

theorem chunkListAux_chain' {R : α → α → Prop} :
    ∀ (fuel b : Nat) (l c : List α), List.Chain' R l → c ∈ chunkListAux fuel b l →
      List.Chain' R c := by
  intro fuel
  induction fuel with
  | zero =>
    intro b l c _ hc
    cases l with
    | nil => rw [chunkListAux_nil] at hc; simp at hc
    | cons x xs => cases b <;> simp [chunkListAux] at hc
  | succ fuel ih =>
    intro b l c hch hc
    cases l with
    | nil => rw [chunkListAux_nil] at hc; simp at hc
    | cons x xs =>
      cases b with
      | zero => simp [chunkListAux] at hc
      | succ b =>
        rw [chunkListAux] at hc
        rcases List.mem_cons.mp hc with hc | hc
        · subst hc
          have heq : x :: xs.take b = (x :: xs).take (b + 1) := by simp
          rw [heq]
          exact hch.take (b + 1)
        · refine ih (b + 1) (xs.drop b) c ?_ hc
          have heq : xs.drop b = (x :: xs).drop (b + 1) := by simp
          rw [heq]
          exact hch.drop (b + 1)

theorem chunkList_flatten (b : Nat) (l : List α) (hb : 0 < b) :
    (chunkList b l).flatten = l :=
  chunkListAux_flatten l.length b l le_rfl hb

theorem chunkList_mem_length (b : Nat) (l c : List α) (hc : c ∈ chunkList b l) :
    0 < c.length ∧ c.length ≤ b :=
  chunkListAux_mem_length l.length b l c hc

theorem chunkList_dropLast_length (b : Nat) (l c : List α)
    (hc : c ∈ (chunkList b l).dropLast) : c.length = b :=
  chunkListAux_dropLast_length l.length b l c hc

theorem chunkList_chain' {R : α → α → Prop} (b : Nat) (l c : List α)
    (hch : List.Chain' R l) (hc : c ∈ chunkList b l) : List.Chain' R c :=
  chunkListAux_chain' l.length b l c hch hc

theorem chunkList_ne_nil (b : Nat) (l : List α) (hb : 0 < b) (hl : l ≠ []) :
    chunkList b l ≠ [] := by
  cases l with
  | nil => exact absurd rfl hl
  | cons x xs =>
    cases b with
    | zero => omega
    | succ b => simp [chunkList, chunkListAux]

theorem dropLast_map (f : α → β) :
    ∀ (l : List α), (l.map f).dropLast = l.dropLast.map f := by
  intro l
  induction l with
  | nil => rfl
  | cons x xs ih =>
    cases xs with
    | nil => rfl
    | cons y ys => simp [ih]

theorem flatten_map_singleton :
    ∀ (l : List α), (l.map (fun a => [a])).flatten = l := by
  intro l
  induction l with
  | nil => rfl
  | cons x xs ih => simp [ih]

end Fuel

namespace Fuel

/-! ### Helper lemmas: assembler validation and lookup -/

theorem mem_firstSeen (x : String) :
    ∀ (l : List String), x ∈ firstSeen l ↔ x ∈ l := by
  intro l
  induction l with
  | nil => simp [firstSeen]
  | cons a l ih =>
    by_cases h : x = a
    · simp [firstSeen, h]
    · simp [firstSeen, List.mem_filter, ih, h, bne_iff_ne]

theorem find?_map_pair (g : String → NDArray) :
    ∀ (ls : List String) (s : String), s ∈ ls →
      (ls.map (fun t => (t, g t))).find? (fun p => p.1 == s) = some (s, g s) := by
  intro ls
  induction ls with
  | nil => simp
  | cons a ls ih =>
    intro s hs
    rw [List.map_cons]
    by_cases h : a = s
    · subst h
      exact List.find?_cons_of_pos _ (by simp)
    · rw [List.find?_cons_of_neg _ (by simpa using h)]
      exact ih s (by rcases List.mem_cons.mp hs with h' | h' <;> [exact absurd h'.symm h; exact h'])

theorem allSameBy_eq {β : Type} [BEq β] [LawfulBEq β] (f : SplitRecord → β) :
    ∀ (recs : List SplitRecord), allSameBy f recs = true →
      ∀ r1 ∈ recs, ∀ r2 ∈ recs, f r1 = f r2 := by
  intro recs h r1 h1 r2 h2
  cases recs with
  | nil => simp at h1
  | cons r0 rest =>
    have key : ∀ t ∈ rest, f t = f r0 := by
      simpa [allSameBy] using h
    have e1 : f r1 = f r0 := by
      rcases List.mem_cons.mp h1 with h' | h'
      · rw [h']
      · exact key r1 h'
    have e2 : f r2 = f r0 := by
      rcases List.mem_cons.mp h2 with h' | h'
      · rw [h']
      · exact key r2 h'
    rw [e1, e2]

theorem mem_recordsOfSource_self {data : List SplitRecord} {r : SplitRecord}
    (h : r ∈ data) : r ∈ recordsOfSource data r.source := by
  simp [recordsOfSource, List.mem_filter, h]

theorem mem_recordsOfSource {data : List SplitRecord} {r : SplitRecord} {s : String}
    (h : r ∈ data) (hs : r.source = s) : r ∈ recordsOfSource data s := by
  simp [recordsOfSource, List.mem_filter, h, hs]

theorem source_mem_sourcesOf {data : List SplitRecord} {r : SplitRecord}
    (h : r ∈ data) : r.source ∈ sourcesOf data := by
  unfold sourcesOf
  rw [mem_firstSeen]
  exact List.mem_map_of_mem _ h

theorem consistent_of_findBadSource_none {data : List SplitRecord}
    (h : findBadSource data = none) :
    ∀ r1 ∈ data, ∀ r2 ∈ data, r1.source = r2.source →
      r1.array.trailing = r2.array.trailing ∧ r1.array.dtype = r2.array.dtype := by
  intro r1 h1 r2 h2 hs
  have hmem : r1.source ∈ sourcesOf data := source_mem_sourcesOf h1
  have hnone := List.find?_eq_none.mp h r1.source hmem
  have hAB : allSameBy (fun r => r.array.trailing) (recordsOfSource data r1.source) = true ∧
      allSameBy (fun r => r.array.dtype) (recordsOfSource data r1.source) = true := by
    rcases hA : allSameBy (fun r => r.array.trailing) (recordsOfSource data r1.source) <;>
      rcases hB : allSameBy (fun r => r.array.dtype) (recordsOfSource data r1.source) <;>
      simp_all
  have m1 : r1 ∈ recordsOfSource data r1.source := mem_recordsOfSource_self h1
  have m2 : r2 ∈ recordsOfSource data r1.source := mem_recordsOfSource h2 hs.symm
  exact ⟨allSameBy_eq (fun r => r.array.trailing) _ hAB.1 r1 m1 r2 m2,
    allSameBy_eq (fun r => r.array.dtype) _ hAB.2 r1 m1 r2 m2⟩

theorem recordsOfSource_decomp (data : List SplitRecord) (i : Nat) (hi : i < data.length)
    (s : String) (hs : (data.getD i default).source = s) :
    recordsOfSource data s =
      recordsOfSource (data.take i) s ++
        (data.getD i default) :: recordsOfSource (data.drop (i + 1)) s := by
  unfold recordsOfSource
  conv_lhs => rw [← List.take_append_drop i data]
  rw [List.filter_append]
  congr 1
  rw [List.getD_eq_getElem data default hi] at hs ⊢
  rw [List.drop_eq_getElem_cons hi, List.filter_cons]
  simp [hs]

end Fuel

namespace Fuel

theorem intRange_chain' (N : Nat) :
    List.Chain' (fun a c : Int => c = a + 1) (intRange N) := by
  rw [intRange, List.chain'_map]
  cases N with
  | zero => simp
  | succ n =>
    rw [List.chain'_range_succ]
    intro m _
    simp [Int.ofNat_succ]

/-! ### Claim theorems -/

/-- C1: for every positive `batch_size` `b` and positive `num_examples` `n`,
the request sequence of `ConstantScheme(b, num_examples=n)` is a finite
nonempty list whose values sum to `n`; every value except the last equals
`b`, and the last value is positive, at most `b`, and equals `n % b`
whenever that remainder is nonzero; iteration stops after it. -/
theorem constantScheme_num_examples_spec (b n : Nat) (hb : 0 < b) (hn : 0 < n) :
    constantSchemeRequests b n ≠ [] ∧
    (constantSchemeRequests b n).sum = n ∧
    (∀ v ∈ (constantSchemeRequests b n).dropLast, v = b) ∧
    (∀ v, (constantSchemeRequests b n).getLast? = some v →
      0 < v ∧ v ≤ b ∧ (n % b ≠ 0 → v = n % b)) := by
  have hdm := Nat.div_add_mod n b
  by_cases hr : n % b = 0
  · obtain ⟨q, hq⟩ : ∃ q, n / b = q + 1 :=
      ⟨n / b - 1, by
        have : 0 < n / b := Nat.div_pos (Nat.le_of_dvd hn (Nat.dvd_of_mod_eq_zero hr)) hb
        omega⟩
    have hL : constantSchemeRequests b n = List.replicate q b ++ [b] := by
      unfold constantSchemeRequests
      rw [if_pos hr, List.append_nil, hq, List.replicate_succ']
    rw [hL]
    refine ⟨by simp, ?_, ?_, ?_⟩
    · rw [← List.replicate_succ', List.sum_replicate, smul_eq_mul, ← hq]
      have hcomm : n / b * b = b * (n / b) := Nat.mul_comm _ _
      omega
    · rw [List.dropLast_concat]
      exact fun v hv => List.eq_of_mem_replicate hv
    · rw [List.getLast?_concat]
      intro v hv
      injection hv with hv
      subst hv
      exact ⟨hb, le_rfl, fun hcon => absurd hr hcon⟩
  · have hL : constantSchemeRequests b n = List.replicate (n / b) b ++ [n % b] := by
      unfold constantSchemeRequests
      rw [if_neg hr]
    rw [hL]
    refine ⟨by simp, ?_, ?_, ?_⟩
    · rw [List.sum_append, List.sum_replicate, smul_eq_mul]
      simp only [List.sum_cons, List.sum_nil]
      have hcomm : n / b * b = b * (n / b) := Nat.mul_comm _ _
      omega
    · rw [List.dropLast_concat]
      exact fun v hv => List.eq_of_mem_replicate hv
    · rw [List.getLast?_concat]
      intro v hv
      injection hv with hv
      subst hv
      exact ⟨Nat.pos_of_ne_zero hr, Nat.le_of_lt (Nat.mod_lt n hb), fun _ => rfl⟩

/-- Witness for C1 at `ConstantScheme(3, num_examples=7)`. -/
theorem constantScheme_num_examples_spec_witness :
    constantSchemeRequests 3 7 ≠ [] ∧
    (constantSchemeRequests 3 7).sum = 7 ∧
    (∀ v ∈ (constantSchemeRequests 3 7).dropLast, v = 3) ∧
    (∀ v, (constantSchemeRequests 3 7).getLast? = some v →
      0 < v ∧ v ≤ 3 ∧ (7 % 3 ≠ 0 → v = 7 % 3)) :=
  constantScheme_num_examples_spec 3 7 (by decide) (by decide)

/-- C2: `SequentialScheme` partitions the population, in its original order,
into consecutive explicit-list chunks of `batch_size`; every chunk except the
last has exactly `batch_size` indices and every chunk has between 1 and
`batch_size`; concretely `SequentialScheme(5, 3)` emits `[[0,1,2],[3,4]]`
and `SequentialScheme([4,3,2,1,0], 3)` emits `[[4,3,2],[1,0]]`. -/
theorem sequentialScheme_partitions (pop : Population) (b : Nat) (hb : 0 < b) :
    ((sequentialSchemeRequests pop b).map Request.toIndices).flatten = pop.indices ∧
    (∀ r ∈ sequentialSchemeRequests pop b,
      ∃ l, r = Request.batch l ∧ 0 < l.length ∧ l.length ≤ b) ∧
    (∀ r ∈ (sequentialSchemeRequests pop b).dropLast,
      ∃ l, r = Request.batch l ∧ l.length = b) ∧
    sequentialSchemeRequests (Population.explicit [4, 3, 2, 1, 0]) 3 =
      [Request.batch [4, 3, 2], Request.batch [1, 0]] ∧
    sequentialSchemeRequests (Population.size 5) 3 =
      [Request.batch [0, 1, 2], Request.batch [3, 4]] := by
  refine ⟨?_, ?_, ?_, by decide, by decide⟩
  · have h1 : (sequentialSchemeRequests pop b).map Request.toIndices =
        chunkList b pop.indices := by
      unfold sequentialSchemeRequests
      rw [List.map_map]
      have : (Request.toIndices ∘ Request.batch) = (fun l : List Int => l) := rfl
      rw [this, List.map_id']
    rw [h1]
    exact chunkList_flatten b pop.indices hb
  · intro r hr
    unfold sequentialSchemeRequests at hr
    rcases List.mem_map.mp hr with ⟨c, hc, rfl⟩
    exact ⟨c, rfl, (chunkList_mem_length b _ c hc).1, (chunkList_mem_length b _ c hc).2⟩
  · intro r hr
    unfold sequentialSchemeRequests at hr
    rw [dropLast_map] at hr
    rcases List.mem_map.mp hr with ⟨c, hc, rfl⟩
    exact ⟨c, rfl, chunkList_dropLast_length b _ c hc⟩

/-- Witness for C2 at `SequentialScheme(5, 3)`. -/
theorem sequentialScheme_partitions_witness :
    ((sequentialSchemeRequests (Population.size 5) 3).map Request.toIndices).flatten =
      (Population.size 5).indices ∧
    (∀ r ∈ sequentialSchemeRequests (Population.size 5) 3,
      ∃ l, r = Request.batch l ∧ 0 < l.length ∧ l.length ≤ 3) ∧
    (∀ r ∈ (sequentialSchemeRequests (Population.size 5) 3).dropLast,
      ∃ l, r = Request.batch l ∧ l.length = 3) ∧
    sequentialSchemeRequests (Population.explicit [4, 3, 2, 1, 0]) 3 =
      [Request.batch [4, 3, 2], Request.batch [1, 0]] ∧
    sequentialSchemeRequests (Population.size 5) 3 =
      [Request.batch [0, 1, 2], Request.batch [3, 4]] :=
  sequentialScheme_partitions (Population.size 5) 3 (by decide)

/-- C9 counterexample: every request of `SequentialScheme(5, 3)` (a bare-size
population) is an explicit index list, not a range descriptor, exactly as the
repository test compares them with Python lists. -/
theorem sequentialScheme_size_not_range_cex :
    (sequentialSchemeRequests (Population.size 5) 3).all
        (fun r => !r.isRangeDescriptor) = true ∧
    sequentialSchemeRequests (Population.size 5) 3 =
      [Request.batch [0, 1, 2], Request.batch [3, 4]] :=
  ⟨by decide, by decide⟩

/-- C9 (amended): for a bare-size population every request of
`SequentialScheme` is a nonempty explicit list of consecutive ascending
indices (the materialisation of a contiguous range), not a range
descriptor. -/
theorem sequentialScheme_size_requests_consecutive (N b : Nat) (hb : 0 < b)
    (r : Request) (hr : r ∈ sequentialSchemeRequests (Population.size N) b) :
    ∃ l, r = Request.batch l ∧ l ≠ [] ∧
      List.Chain' (fun a c : Int => c = a + 1) l := by
  unfold sequentialSchemeRequests at hr
  rcases List.mem_map.mp hr with ⟨c, hc, rfl⟩
  refine ⟨c, rfl, ?_, ?_⟩
  · have hpos := (chunkList_mem_length b _ c hc).1
    intro hnil
    rw [hnil] at hpos
    simp at hpos
  · exact chunkList_chain' b _ c (intRange_chain' N) hc

/-- Witness for the amended C9 at `SequentialScheme(5, 3)`, request `[3, 4]`. -/
theorem sequentialScheme_size_requests_consecutive_witness :
    ∃ l, Request.batch [3, 4] = Request.batch l ∧ l ≠ [] ∧
      List.Chain' (fun a c : Int => c = a + 1) l :=
  sequentialScheme_size_requests_consecutive 5 3 (by decide)
    (Request.batch [3, 4]) (by decide)

/-- C10: the example schemes emit bare integer indices (never lists): the
sequential one emits the population in its original order, and the shuffled
one emits the generator's permutation of the population, each element of the
population appearing exactly once. -/
theorem exampleSchemes_emit_bare_indices (pop : Population) (st : RKState) :
    sequentialExampleSchemeRequests pop = pop.indices.map Request.index ∧
    (∀ r ∈ sequentialExampleSchemeRequests pop, ∃ i, r = Request.index i) ∧
    ((sequentialExampleSchemeRequests pop).map Request.toIndices).flatten = pop.indices ∧
    (shuffledExampleSchemeRequests pop st).1 =
      ((npShuffle pop.indices st).1).map Request.index ∧
    (∀ r ∈ (shuffledExampleSchemeRequests pop st).1, ∃ i, r = Request.index i) ∧
    List.Perm (((shuffledExampleSchemeRequests pop st).1.map Request.toIndices).flatten)
      pop.indices := by
  have hseq : sequentialExampleSchemeRequests pop = pop.indices.map Request.index := rfl
  have hsingle : (Request.toIndices ∘ Request.index) = (fun i : Int => [i]) := rfl
  have hshuf : (shuffledExampleSchemeRequests pop st).1 =
      ((npShuffle pop.indices st).1).map Request.index := by
    unfold shuffledExampleSchemeRequests
    rcases hnp : npShuffle pop.indices st with ⟨sh, st'⟩
    rfl
  refine ⟨hseq, ?_, ?_, hshuf, ?_, ?_⟩
  · intro r hr
    rw [hseq] at hr
    rcases List.mem_map.mp hr with ⟨i, _, rfl⟩
    exact ⟨i, rfl⟩
  · rw [hseq, List.map_map, hsingle, flatten_map_singleton]
  · intro r hr
    rw [hshuf] at hr
    rcases List.mem_map.mp hr with ⟨i, _, rfl⟩
    exact ⟨i, rfl⟩
  · rw [hshuf, List.map_map, hsingle, flatten_map_singleton]
    exact npShuffle_fst_perm pop.indices st

end Fuel

namespace Fuel

/-- C6: `ShuffledScheme(N, b)` with a freshly seeded `RandomState(s)` emits
exactly the explicit-list chunks obtained by permuting `0..N-1` with numpy's
shuffle under that generator and then chunking into size-`b` pieces; no
request is a range descriptor, and the concatenation of all requests is a
permutation of `0..N-1`. -/
theorem shuffledScheme_permutes_then_partitions (N b s : Nat) (hb : 0 < b) :
    (shuffledSchemeRequests (Population.size N) b false (rkSeed s)).1 =
      (chunkList b (npShuffle (intRange N) (rkSeed s)).1).map Request.batch ∧
    (shuffledSchemeRequests (Population.size N) b false (rkSeed s)).2 =
      (npShuffle (intRange N) (rkSeed s)).2 ∧
    (∀ r ∈ (shuffledSchemeRequests (Population.size N) b false (rkSeed s)).1,
      r.isRangeDescriptor = false ∧ ∃ l, r = Request.batch l) ∧
    List.Perm
      (((shuffledSchemeRequests (Population.size N) b false (rkSeed s)).1.map
        Request.toIndices).flatten)
      (intRange N) := by
  have hpair : shuffledSchemeRequests (Population.size N) b false (rkSeed s) =
      ((chunkList b (npShuffle (intRange N) (rkSeed s)).1).map Request.batch,
        (npShuffle (intRange N) (rkSeed s)).2) := by
    rcases hnp : npShuffle (intRange N) (rkSeed s) with ⟨sh, st'⟩
    simp [shuffledSchemeRequests, Population.indices, hnp]
  rw [hpair]
  refine ⟨rfl, rfl, ?_, ?_⟩
  · intro r hr
    rcases List.mem_map.mp hr with ⟨c, hc, rfl⟩
    exact ⟨rfl, c, rfl⟩
  · rw [List.map_map]
    have hcomp : (Request.toIndices ∘ Request.batch) = (fun l : List Int => l) := rfl
    rw [hcomp, List.map_id']
    rw [chunkList_flatten b _ hb]
    exact npShuffle_fst_perm (intRange N) (rkSeed s)

/-- Witness for C6 at `N = 7`, `b = 3`, seed 3 (the repository test's
configuration). -/
theorem shuffledScheme_permutes_then_partitions_witness :
    (shuffledSchemeRequests (Population.size 7) 3 false (rkSeed 3)).1 =
      (chunkList 3 (npShuffle (intRange 7) (rkSeed 3)).1).map Request.batch ∧
    (shuffledSchemeRequests (Population.size 7) 3 false (rkSeed 3)).2 =
      (npShuffle (intRange 7) (rkSeed 3)).2 ∧
    (∀ r ∈ (shuffledSchemeRequests (Population.size 7) 3 false (rkSeed 3)).1,
      r.isRangeDescriptor = false ∧ ∃ l, r = Request.batch l) ∧
    List.Perm
      (((shuffledSchemeRequests (Population.size 7) 3 false (rkSeed 3)).1.map
        Request.toIndices).flatten)
      (intRange 7) :=
  shuffledScheme_permutes_then_partitions 7 3 3 (by decide)

/-- C7: with the same generator state, `sorted_indices=True` produces requests
with exactly the same chunk membership as `sorted_indices=False` (each chunk a
permutation of its counterpart), each sorted chunk ascending; the advanced
generator state is also identical. -/
theorem shuffledScheme_sorted_preserves_membership (pop : Population) (b : Nat)
    (st : RKState) :
    (shuffledSchemeRequests pop b true st).2 = (shuffledSchemeRequests pop b false st).2 ∧
    List.Forall₂
      (fun rs ru => ∃ ls lu, rs = Request.batch ls ∧ ru = Request.batch lu ∧
        List.Perm ls lu ∧ List.Sorted (fun a c : Int => a ≤ c) ls)
      (shuffledSchemeRequests pop b true st).1
      (shuffledSchemeRequests pop b false st).1 := by
  rcases hnp : npShuffle pop.indices st with ⟨sh, st'⟩
  have ht : shuffledSchemeRequests pop b true st =
      ((chunkList b sh).map (fun c => Request.batch (List.insertionSort (· ≤ ·) c)), st') := by
    simp [shuffledSchemeRequests, hnp]
  have hf : shuffledSchemeRequests pop b false st =
      ((chunkList b sh).map Request.batch, st') := by
    simp [shuffledSchemeRequests, hnp]
  rw [ht, hf]
  refine ⟨rfl, ?_⟩
  rw [List.forall₂_map_left_iff, List.forall₂_map_right_iff, List.forall₂_same]
  intro c _
  exact ⟨List.insertionSort (· ≤ ·) c, c, rfl, rfl, List.perm_insertionSort _ c,
    List.sorted_insertionSort _ c⟩

/-- C8 counterexample: a `ShuffledScheme` instance over a single-index
population reproduces exactly the same request sequence on two successive
iterator calls (the shuffle of one element draws nothing from the RNG), so
successive calls do not always differ. -/
theorem shuffledScheme_repeat_call_cex :
    (shuffledSchemeRequests (Population.size 1) 1 false (rkSeed 3)).1 =
      (shuffledSchemeRequests (Population.size 1) 1 false
        ((shuffledSchemeRequests (Population.size 1) 1 false (rkSeed 3)).2)).1 ∧
    (shuffledSchemeRequests (Population.size 1) 1 false (rkSeed 3)).1 =
      [Request.batch [0]] :=
  ⟨rfl, rfl⟩

/-- C8 (amended): the generator state advances across successive iterator
calls, so successive calls need not reproduce the permutation — in the
tested configuration (`RandomState(3)`, population 7, batch 3) the first and
second request sequences differ — although they can coincide for degenerate
(at most one-index) populations; re-seeding reproduces the first sequence. -/
theorem shuffledScheme_rng_advances :
    (shuffledSchemeRequests (Population.size 7) 3 false (rkSeed 3)).1 =
      [Request.batch [4, 6, 5], Request.batch [3, 1, 0], Request.batch [2]] ∧
    (shuffledSchemeRequests (Population.size 7) 3 false
        ((shuffledSchemeRequests (Population.size 7) 3 false (rkSeed 3)).2)).1 =
      [Request.batch [6, 4, 1], Request.batch [2, 3, 5], Request.batch [0]] ∧
    (shuffledSchemeRequests (Population.size 7) 3 false (rkSeed 3)).1 ≠
      (shuffledSchemeRequests (Population.size 7) 3 false
        ((shuffledSchemeRequests (Population.size 7) 3 false (rkSeed 3)).2)).1 := by
  decide

end Fuel

namespace Fuel

/-! ### Concrete assembler inputs (the `TestFillHDF5File` fixtures) -/

/-- `train_features` of the repository's assembler test: shape `(4, 2, 2)`,
dtype `uint8`. -/
def trainFeaturesArr : NDArray :=
  ⟨"uint8", [2, 2], [[0, 1, 2, 3], [4, 5, 6, 7], [8, 9, 10, 11], [12, 13, 14, 15]]⟩

/-- `test_features`: shape `(2, 2, 2)`, dtype `uint8`. -/
def testFeaturesArr : NDArray := ⟨"uint8", [2, 2], [[3, 4, 5, 6], [7, 8, 9, 10]]⟩

/-- `train_targets`: shape `(4, 1)`, dtype `float32`. -/
def trainTargetsArr : NDArray := ⟨"float32", [1], [[0], [1], [2], [3]]⟩

/-- `test_targets`: shape `(2, 1)`, dtype `float32`. -/
def testTargetsArr : NDArray := ⟨"float32", [1], [[3], [4]]⟩

/-- The four-record input of `test_data` / `test_dtype`. -/
def roundtripData : List SplitRecord :=
  [⟨"train", "features", trainFeaturesArr, some "."⟩,
   ⟨"train", "targets", trainTargetsArr, none⟩,
   ⟨"test", "features", testFeaturesArr, none⟩,
   ⟨"test", "targets", testTargetsArr, none⟩]

/-- The input of `test_multiple_dtype_error`: same source `features` with
dtypes `uint8` and `float32`. -/
def dtypeMismatchData : List SplitRecord :=
  [⟨"train", "features", trainFeaturesArr, none⟩,
   ⟨"test", "features", ⟨"float32", [2, 2], [[3, 4, 5, 6], [7, 8, 9, 10]]⟩, none⟩]

/-- The input of `test_multiple_length_error`: `train/features` has 4 rows
while `train/targets` has 8, each source internally consistent. -/
def lengthMismatchData : List SplitRecord :=
  [⟨"train", "features", trainFeaturesArr, none⟩,
   ⟨"train", "targets",
     ⟨"float32", [1], [[0], [1], [2], [3], [4], [5], [6], [7]]⟩, none⟩]

/-- A valid input whose sources have different total row counts (source `A`
appears in two splits, source `B` in one). -/
def unevenTotalsData : List SplitRecord :=
  [⟨"train", "A", ⟨"uint8", [1], [[0], [1]]⟩, none⟩,
   ⟨"train", "B", ⟨"uint8", [1], [[2], [3]]⟩, none⟩,
   ⟨"test", "A", ⟨"uint8", [1], [[4], [5], [6]]⟩, none⟩]

/-- C3: whenever `fill_hdf5_file` succeeds, the table written for each
record's source is the row-wise (axis-0) concatenation of that source's
arrays in input order, with the common dtype and trailing shape preserved,
and each record's recorded `[start, stop)` boundary slices the table back to
exactly that record's original rows. -/
theorem fillHDF5File_roundtrip (data : List SplitRecord) (out : AssemblerOutput)
    (h : fillHDF5File data = Except.ok out) (i : Nat) (hi : i < data.length) :
      lookupTable out (data.getD i default).source =
        some { dtype := (data.getD i default).array.dtype
               trailing := (data.getD i default).array.trailing
               rows := ((recordsOfSource data (data.getD i default).source).map
                  (fun t => t.array.rows)).flatten } ∧
      out.splitBounds.getD i default =
        (((data.getD i default).split, (data.getD i default).source),
          (recordStart data i,
            recordStart data i + (data.getD i default).array.rows.length)) ∧
      sliceRows
          (((recordsOfSource data (data.getD i default).source).map
            (fun t => t.array.rows)).flatten)
          (recordStart data i)
          (recordStart data i + (data.getD i default).array.rows.length) =
        (data.getD i default).array.rows := by
  unfold fillHDF5File at h
  rcases h1 : findBadSplit data with _ | s
  · rw [h1] at h
    rcases h2 : findBadSource data with _ | s2
    · rw [h2] at h
      obtain rfl : buildOutput data = out := Except.ok.inj h
      have hrmem : data.getD i default ∈ data := by
        rw [List.getD_eq_getElem data default hi]
        exact List.getElem_mem hi
      have hsrcmem : (data.getD i default).source ∈ sourcesOf data :=
        source_mem_sourcesOf hrmem
      refine ⟨?_, ?_, ?_⟩
      · unfold lookupTable buildOutput
        rw [find?_map_pair _ _ _ hsrcmem]
        rcases hrecs : recordsOfSource data (data.getD i default).source with _ | ⟨r0, rest⟩
        · exact absurd (mem_recordsOfSource_self hrmem) (by rw [hrecs]; simp)
        · have hr0 : r0 ∈ recordsOfSource data (data.getD i default).source := by
            rw [hrecs]
            exact List.mem_cons_self r0 rest
          have hr0data : r0 ∈ data := List.mem_of_mem_filter hr0
          have hr0s : r0.source = (data.getD i default).source := by
            have := (List.mem_filter.mp hr0).2
            simpa using this
          have hcons := consistent_of_findBadSource_none h2 r0 hr0data
            (data.getD i default) hrmem hr0s
          simp [concatSource, hcons.1, hcons.2]
      · unfold buildOutput
        have hi' : i < (List.range data.length).length := by simpa using hi
        rw [List.getD_eq_getElem _ _ (by simpa using hi), List.getElem_map,
          List.getElem_range]
      · have hdecomp := recordsOfSource_decomp data i hi _ rfl
        rw [hdecomp, List.map_append, List.map_cons, List.flatten_append,
          List.flatten_cons]
        unfold sliceRows
        have hstart : recordStart data i =
            ((recordsOfSource (data.take i) (data.getD i default).source).map
              (fun t => t.array.rows)).flatten.length := by
          rw [List.length_flatten, List.map_map]
          rfl
        rw [hstart, List.drop_left, Nat.add_sub_cancel_left, List.take_left]
    · rw [h2] at h
      exact Except.noConfusion h
  · rw [h1] at h
    exact Except.noConfusion h

/-- Witness for C3 at the four-record fixture of `test_data`, record 2
(`test/features`, rows `[4, 6)` of the `features` table). -/
theorem fillHDF5File_roundtrip_witness :
      lookupTable (buildOutput roundtripData) (roundtripData.getD 2 default).source =
        some { dtype := (roundtripData.getD 2 default).array.dtype
               trailing := (roundtripData.getD 2 default).array.trailing
               rows := ((recordsOfSource roundtripData
                    (roundtripData.getD 2 default).source).map
                  (fun t => t.array.rows)).flatten } ∧
      (buildOutput roundtripData).splitBounds.getD 2 default =
        (((roundtripData.getD 2 default).split, (roundtripData.getD 2 default).source),
          (recordStart roundtripData 2,
            recordStart roundtripData 2 +
              (roundtripData.getD 2 default).array.rows.length)) ∧
      sliceRows
          (((recordsOfSource roundtripData
              (roundtripData.getD 2 default).source).map
            (fun t => t.array.rows)).flatten)
          (recordStart roundtripData 2)
          (recordStart roundtripData 2 +
            (roundtripData.getD 2 default).array.rows.length) =
        (roundtripData.getD 2 default).array.rows :=
  fillHDF5File_roundtrip roundtripData (buildOutput roundtripData) (by rfl) 2 (by decide)

/-- C4: two records of the same source that differ in trailing shape or in
dtype make `fill_hdf5_file` fail with a validation error; the error branch
produces no output, so nothing is written. -/
theorem fillHDF5File_rejects_mismatch (data : List SplitRecord)
    (r1 r2 : SplitRecord) (h1 : r1 ∈ data) (h2 : r2 ∈ data)
    (hs : r1.source = r2.source)
    (hm : r1.array.trailing ≠ r2.array.trailing ∨ r1.array.dtype ≠ r2.array.dtype) :
    ∃ msg, fillHDF5File data = Except.error msg := by
  unfold fillHDF5File
  rcases hsp : findBadSplit data with _ | s
  · rcases hsr : findBadSource data with _ | s
    · exfalso
      rcases hm with hm | hm
      · exact hm (consistent_of_findBadSource_none hsr r1 h1 r2 h2 hs).1
      · exact hm (consistent_of_findBadSource_none hsr r1 h1 r2 h2 hs).2
    · exact ⟨_, rfl⟩
  · exact ⟨_, rfl⟩

/-- Witness for C4 at the `test_multiple_dtype_error` fixture. -/
theorem fillHDF5File_rejects_mismatch_witness :
    ∃ msg, fillHDF5File dtypeMismatchData = Except.error msg :=
  fillHDF5File_rejects_mismatch dtypeMismatchData
    ⟨"train", "features", trainFeaturesArr, none⟩
    ⟨"test", "features", ⟨"float32", [2, 2], [[3, 4, 5, 6], [7, 8, 9, 10]]⟩, none⟩
    (by decide) (by decide) (by decide) (by decide)

/-- C5 counterexample: the `test_multiple_length_error` input — two sources,
each internally consistent in dtype and trailing shape, contributing 4 and 8
rows to the same split — is rejected by `fill_hdf5_file`, so differing row
counts between sources can be an error, contrary to the claim. -/
theorem fillHDF5File_uneven_sources_cex :
    findBadSource lengthMismatchData = none ∧
    (concatSource (recordsOfSource lengthMismatchData "features")).rows.length = 4 ∧
    (concatSource (recordsOfSource lengthMismatchData "targets")).rows.length = 8 ∧
    fillHDF5File lengthMismatchData =
      Except.error "split train has sources that vary in length" :=
  ⟨by decide, by decide, by decide, by rfl⟩

/-- C5 (amended): only sources within one split must agree in row count;
any input passing the per-split row-count validation and the per-source
shape/dtype validation assembles successfully, regardless of the sources'
total row counts. -/
theorem fillHDF5File_ok_of_valid (data : List SplitRecord)
    (h1 : findBadSplit data = none) (h2 : findBadSource data = none) :
    fillHDF5File data = Except.ok (buildOutput data) := by
  unfold fillHDF5File
  rw [h1, h2]

/-- Witness for the amended C5: a valid input whose sources total 5 and 2
rows respectively still assembles. -/
theorem fillHDF5File_ok_of_valid_witness :
    fillHDF5File unevenTotalsData = Except.ok (buildOutput unevenTotalsData) ∧
    (concatSource (recordsOfSource unevenTotalsData "A")).rows.length = 5 ∧
    (concatSource (recordsOfSource unevenTotalsData "B")).rows.length = 2 :=
  ⟨fillHDF5File_ok_of_valid unevenTotalsData (by decide) (by decide),
    by decide, by decide⟩

end Fuel
